import Mathlib

/-!
Shallow embedding of the `sparse_complex` crate (src/src/lib.rs and
src/src/tools.rs): a sparse complex matrix stored as a vector of
`(row, col, (real, imag))` triplets, with an augmentation step that maps the
complex system onto a real system of twice the order, handed to the external
`sparse21` solver.

Modelling conventions:
- `f64` values are modelled as `ℚ`.  Every concrete value used in a theorem
  below is exactly representable as an IEEE-754 double and every comparison
  performed on it by the code is exact, so the rational model is faithful on
  those inputs.  `std::f64::MIN_POSITIVE` (the smallest positive *normal*
  double, `2^-1022`) is modelled as the rational `minPos`; subnormal doubles
  are nonzero rationals strictly between `0` and `minPos`.
- `usize` indices are modelled as `Nat`.
- The external `sparse21::Matrix` is opaque to this crate; the crate only ever
  appends elements to it and calls its `solve`.  It is modelled as the list of
  `(row, col, value)` insertions performed on it, in order, and `solve` is
  modelled parametrically over the primitive solver's behaviour.
- Rust methods taking `&mut self` become functions returning the new state
  (paired with the return value where there is one).
-/

namespace SparseComplex

/-- `type Entry = (usize, usize, (f64, f64));` — row, column, (real, imag). -/
abbrev Entry : Type := Nat × Nat × (ℚ × ℚ)

/-- One insertion performed on the primitive (`sparse21`) matrix. -/
abbrev PrimEntry : Type := Nat × Nat × ℚ

/-- The `ComplexMatrix` struct: the opaque primitive matrix (modelled as its
insertion log), the complex triplet store, the `builded` flag and the cached
`order` field. -/
structure ComplexMatrix where
  primitive : List PrimEntry
  entries : List Entry
  builded : Bool
  order : Nat
deriving DecidableEq

/-- `ComplexMatrix::new()`: empty entry list, empty primitive, not built,
order 0. -/
def new : ComplexMatrix := ⟨[], [], false, 0⟩

/-- `std::f64::MIN_POSITIVE = 2^-1022`, the threshold used by
`set_in_primitive`.  Written as an already-normalised rational (numerator `1`,
denominator `2^1022`) so that comparisons against it reduce in the kernel. -/
def minPos : ℚ := ⟨1, 2 ^ 1022, by norm_num, Nat.coprime_one_left _⟩

/-- The test `real >= MIN_POS_VALUE || real <= -MIN_POS_VALUE` guarding each
primitive insertion. -/
def aboveMin (x : ℚ) : Prop := minPos ≤ x ∨ x ≤ -minPos

instance (x : ℚ) : Decidable (aboveMin x) := by
  unfold aboveMin; infer_instance

/-- `ComplexMatrix::set_in_primitive`: for the entry `(row, col, (real, imag))`
and the current `self.order`, insert `real` at `(row, col)` and
`(row+order, col+order)` when `|real| ≥ MIN_POSITIVE`, and `-imag` at
`(row, col+order)` and `imag` at `(row+order, col)` when
`|imag| ≥ MIN_POSITIVE`. -/
def set_in_primitive (M : ComplexMatrix) (e : Entry) : ComplexMatrix :=
  let row := e.1
  let col := e.2.1
  let real := e.2.2.1
  let imag := e.2.2.2
  { M with primitive :=
      M.primitive
      ++ (if aboveMin real then
            [(row, col, real), (row + M.order, col + M.order, real)]
          else [])
      ++ (if aboveMin imag then
            [(row, col + M.order, -imag), (row + M.order, col, imag)]
          else []) }

/-- One iteration of the loop in `ComplexMatrix::set_order`: raise `o` to
`row + 1` if `row + 1 > o`, then to `col + 1` if `col + 1 > o`. -/
def orderStep (o : Nat) (e : Entry) : Nat := max (max o (e.1 + 1)) (e.2.1 + 1)

/-- `ComplexMatrix::set_order`: starting from the current `self.order`, raise
it to `row+1` / `col+1` for every stored entry. -/
def set_order (M : ComplexMatrix) : ComplexMatrix :=
  { M with order := M.entries.foldl orderStep M.order }

/-- `ComplexMatrix::build_primitive`: recompute the order, then push every
stored entry into the primitive matrix, then mark the matrix as built. -/
def build_primitive (M : ComplexMatrix) : ComplexMatrix :=
  let M1 := set_order M
  let M2 := M1.entries.foldl set_in_primitive M1
  { M2 with builded := true }

/-- `ComplexMatrix::from_entries`. -/
def from_entries (es : List Entry) : ComplexMatrix :=
  build_primitive ⟨[], es, false, 0⟩

/-- `ComplexMatrix::add_element`: when `value ≠ (0, 0)`, drop every stored
triplet equal to `(row, col, value)` (note: full-triplet equality, not
coordinate equality), append `(row, col, value)`, and clear the `builded`
flag; when `value = (0, 0)`, do nothing. -/
def add_element (M : ComplexMatrix) (row col : Nat) (value : ℚ × ℚ) :
    ComplexMatrix :=
  if value ≠ (0, 0) then
    { M with
      entries := (M.entries.filter (fun e => decide (e ≠ (row, col, value))))
        ++ [(row, col, value)]
      builded := false }
  else M

/-- `ComplexMatrix::add_elements`: `add_element` for each triplet in input
order. -/
def add_elements (M : ComplexMatrix) (es : List Entry) : ComplexMatrix :=
  es.foldl (fun acc e => add_element acc e.1 e.2.1 e.2.2) M

/-- `ComplexMatrix::get`: first stored triplet whose coordinates match,
if any. -/
def get (M : ComplexMatrix) (row col : Nat) : Option (ℚ × ℚ) :=
  match M.entries.find? (fun e => decide (e.1 = row ∧ e.2.1 = col)) with
  | some e => some e.2.2
  | none => none

/-- `ComplexMatrix::order()`: return the cached order if built, otherwise
rebuild first.  Returns the value together with the updated state. -/
def order' (M : ComplexMatrix) : Nat × ComplexMatrix :=
  if M.builded then (M.order, M)
  else
    let M' := build_primitive M
    (M'.order, M')

/-- `tools::complex_to_primitive`: unzip and concatenate — all real parts in
order, then all imaginary parts in order. -/
def complex_to_primitive (complex : List (ℚ × ℚ)) : List ℚ :=
  complex.map Prod.fst ++ complex.map Prod.snd

/-- `tools::primitive_to_complex`: error on odd length, otherwise zip the
first half with the second half. -/
def primitive_to_complex (primitive : List ℚ) :
    Except String (List (ℚ × ℚ)) :=
  let len := primitive.length
  if len % 2 ≠ 0 then .error "Lenght error"
  else .ok ((primitive.take (len / 2)).zip (primitive.drop (len / 2)))

/-- `ComplexMatrix::solve`: build the primitive if needed, expand `b` to real
form, call the primitive solver (abstracted as `primSolve`, the external
`sparse21::Matrix::solve`), and fold the real solution back to complex pairs.
The `?` operator propagates a primitive-solver error unchanged.  No length
check is performed on `b`. -/
def solve (primSolve : List PrimEntry → List ℚ → Except String (List ℚ))
    (M : ComplexMatrix) (b : List (ℚ × ℚ)) :
    Except String (List (ℚ × ℚ)) × ComplexMatrix :=
  let M' := if M.builded then M else build_primitive M
  let b_primitive := complex_to_primitive b
  match primSolve M'.primitive b_primitive with
  | .error e => (.error e, M')
  | .ok primitive_result => (primitive_to_complex primitive_result, M')

/-- `impl PartialEq for ComplexMatrix`: equality of the stored entry vectors
(element-by-element, in stored order). -/
def eq (M1 M2 : ComplexMatrix) : Bool := decide (M1.entries = M2.entries)

/-- Rendering of an `f64` value by Rust's `Display`, restricted to
integer-valued doubles (the only values the rendering claims exercise):
`3.0` displays as `3`, `-2.0` as `-2`. -/
def showF (q : ℚ) : String := if q.den = 1 then toString q.num else toString q

/-- One iteration of the loop in `impl fmt::Debug for ComplexMatrix`:
`msg = format!("{}  ({},{}) -> {} - j{}\n", msg, row, col, real, -imag)` when
`imag < 0`, and the `+ j` variant otherwise. -/
def fmt_entry_step (msg : String) (e : Entry) : String :=
  if e.2.2.2 < 0 then
    msg ++ ("  (" ++ toString e.1 ++ "," ++ toString e.2.1 ++ ") -> "
      ++ showF e.2.2.1 ++ " - j" ++ showF (-e.2.2.2) ++ "\n")
  else
    msg ++ ("  (" ++ toString e.1 ++ "," ++ toString e.2.1 ++ ") -> "
      ++ showF e.2.2.1 ++ " + j" ++ showF e.2.2.2 ++ "\n")

/-- `impl fmt::Debug for ComplexMatrix`: fold `fmt_entry_step` over the
entries, between the fixed header and a closing brace. -/
def fmt_debug (M : ComplexMatrix) : String :=
  (M.entries.foldl fmt_entry_step "ComplexMatrix \x7b \n") ++ "\x7d"

/-- The IEEE-754 double `2^-1023`: a nonzero subnormal (subnormal doubles
range over `±[2^-1074, 2^-1022)`), exactly representable, and compared
exactly by `set_in_primitive`'s guard.  Written as an already-normalised
rational so that comparisons against it reduce in the kernel. -/
def subnormal : ℚ := ⟨1, 2 ^ 1023, by norm_num, Nat.coprime_one_left _⟩

/-- The order as derived from the stored entries: fold of `orderStep`
starting from `0`. -/
def computedOrder (es : List Entry) : Nat := es.foldl orderStep 0

/-- Inner step for `specOrder`: running maximum of `row` and `col`. -/
def specStep (a : Nat) (e : Entry) : Nat := max a (max e.1 e.2.1)

/-- The order as the specification words it: `1 + max(row, col)` over all
stored triplets, `0` for an empty matrix.  Stated independently of the
code's `set_order` so the two can be compared. -/
def specOrder (es : List Entry) : Nat :=
  match es with
  | [] => 0
  | _ => 1 + es.foldl specStep 0

/-- The rendering of one entry as the specification words it: a line
`(row,col) -> value`, with `+ j` for a non-negative imaginary component and
`- j` followed by the negated imaginary component for a negative one.
Stated independently of `fmt_debug` so the two can be compared. -/
def entryLine (e : Entry) : String :=
  if e.2.2.2 < 0 then
    "  (" ++ toString e.1 ++ "," ++ toString e.2.1 ++ ") -> "
      ++ showF e.2.2.1 ++ " - j" ++ showF (-e.2.2.2) ++ "\n"
  else
    "  (" ++ toString e.1 ++ "," ++ toString e.2.1 ++ ") -> "
      ++ showF e.2.2.1 ++ " + j" ++ showF e.2.2.2 ++ "\n"

/-- A public mutation of the matrix: one `add_element` call or one
`add_elements` call. -/
inductive Op where
  | addElement : Nat → Nat → ℚ × ℚ → Op
  | addElements : List Entry → Op

/-- Run one mutation. -/
def applyOp (M : ComplexMatrix) : Op → ComplexMatrix
  | .addElement row col v => add_element M row col v
  | .addElements es => add_elements M es

/-- Run a sequence of mutations, in order. -/
def applyOps (M : ComplexMatrix) (ops : List Op) : ComplexMatrix :=
  ops.foldl applyOp M

/-- State invariant maintained by every construction and mutation of a
`ComplexMatrix`: the cached `order` field is a lower bound of the order
derivable from the current entries, and is exactly that order whenever the
`builded` flag is set. -/
def Inv (M : ComplexMatrix) : Prop :=
  M.order ≤ computedOrder M.entries
    ∧ (M.builded = true → M.order = computedOrder M.entries)

instance (M : ComplexMatrix) : Decidable (Inv M) := by
  unfold Inv; infer_instance

/-! ### Order bookkeeping -/

theorem foldl_orderStep_eq (es : List Entry) (a : Nat) :
    es.foldl orderStep a = max a (computedOrder es) := by
  induction es generalizing a with
  | nil => simp [computedOrder]
  | cons e es ih =>
    have h1 : (e :: es).foldl orderStep a = es.foldl orderStep (orderStep a e) := rfl
    have h2 : computedOrder (e :: es) = es.foldl orderStep (orderStep 0 e) := rfl
    rw [h1, h2, ih, ih]
    simp only [orderStep]
    omega

theorem le_computedOrder_of_mem {es : List Entry} {e : Entry} (h : e ∈ es) :
    max (e.1 + 1) (e.2.1 + 1) ≤ computedOrder es := by
  induction es with
  | nil => cases h
  | cons x xs ih =>
    have h2 : computedOrder (x :: xs) = xs.foldl orderStep (orderStep 0 x) := rfl
    rw [h2, foldl_orderStep_eq]
    rcases List.mem_cons.mp h with h | h
    · subst h
      simp only [orderStep]
      omega
    · have := ih h
      omega

theorem computedOrder_le {es : List Entry} {m : Nat}
    (h : ∀ e ∈ es, max (e.1 + 1) (e.2.1 + 1) ≤ m) : computedOrder es ≤ m := by
  induction es with
  | nil => simp [computedOrder]
  | cons x xs ih =>
    have h2 : computedOrder (x :: xs) = xs.foldl orderStep (orderStep 0 x) := rfl
    rw [h2, foldl_orderStep_eq]
    have hx := h x (List.mem_cons_self _ _)
    have hxs := ih (fun e he => h e (List.mem_cons_of_mem _ he))
    simp only [orderStep]
    omega

theorem foldl_specStep_eq (es : List Entry) (a : Nat) :
    es.foldl specStep a = max a (es.foldl specStep 0) := by
  induction es generalizing a with
  | nil => simp
  | cons e es ih =>
    have h1 : (e :: es).foldl specStep a = es.foldl specStep (specStep a e) := rfl
    have h2 : (e :: es).foldl specStep 0 = es.foldl specStep (specStep 0 e) := rfl
    rw [h1, h2, ih (specStep a e), ih (specStep 0 e)]
    simp only [specStep]
    omega

theorem computedOrder_eq_specOrder (es : List Entry) :
    computedOrder es = specOrder es := by
  induction es with
  | nil => rfl
  | cons e es ih =>
    have h2 : computedOrder (e :: es) = es.foldl orderStep (orderStep 0 e) := rfl
    rw [h2, foldl_orderStep_eq]
    cases es with
    | nil =>
      have ha : computedOrder ([] : List Entry) = 0 := rfl
      have hb : specOrder [e] = 1 + specStep 0 e := rfl
      rw [ha, hb]
      simp only [orderStep, specStep]
      omega
    | cons f fs =>
      rw [ih]
      have h3 : specOrder (e :: f :: fs)
          = 1 + (f :: fs).foldl specStep (specStep 0 e) := rfl
      have h5 : specOrder (f :: fs) = 1 + (f :: fs).foldl specStep 0 := rfl
      rw [h3, foldl_specStep_eq, h5]
      simp only [orderStep, specStep]
      omega

/-! ### Field bookkeeping through the build steps -/

theorem set_in_primitive_fields (M : ComplexMatrix) (e : Entry) :
    (set_in_primitive M e).entries = M.entries
      ∧ (set_in_primitive M e).order = M.order
      ∧ (set_in_primitive M e).builded = M.builded :=
  ⟨rfl, rfl, rfl⟩

theorem foldl_set_in_primitive_fields (es : List Entry) (M : ComplexMatrix) :
    (es.foldl set_in_primitive M).entries = M.entries
      ∧ (es.foldl set_in_primitive M).order = M.order
      ∧ (es.foldl set_in_primitive M).builded = M.builded := by
  induction es generalizing M with
  | nil => exact ⟨rfl, rfl, rfl⟩
  | cons e es ih => exact ih (set_in_primitive M e)

theorem build_primitive_entries (M : ComplexMatrix) :
    (build_primitive M).entries = M.entries := by
  unfold build_primitive
  exact (foldl_set_in_primitive_fields _ _).1

theorem build_primitive_order (M : ComplexMatrix) :
    (build_primitive M).order = max M.order (computedOrder M.entries) := by
  unfold build_primitive
  rw [(foldl_set_in_primitive_fields _ _).2.1]
  show (set_order M).order = _
  unfold set_order
  exact foldl_orderStep_eq _ _

theorem build_primitive_builded (M : ComplexMatrix) :
    (build_primitive M).builded = true := rfl

theorem add_element_zero (M : ComplexMatrix) (row col : Nat) :
    add_element M row col (0, 0) = M := by
  simp [add_element]

theorem add_element_fields (M : ComplexMatrix) (row col : Nat) (v : ℚ × ℚ)
    (hv : v ≠ (0, 0)) :
    (add_element M row col v).entries
        = (M.entries.filter (fun e => decide (e ≠ (row, col, v))))
          ++ [(row, col, v)]
      ∧ (add_element M row col v).order = M.order
      ∧ (add_element M row col v).builded = false := by
  rw [add_element, if_pos hv]
  exact ⟨rfl, rfl, rfl⟩

/-! ### The invariant and monotonicity of the derived order -/

theorem computedOrder_add_element (M : ComplexMatrix) (row col : Nat)
    (v : ℚ × ℚ) :
    computedOrder M.entries ≤ computedOrder (add_element M row col v).entries := by
  by_cases hv : v = (0, 0)
  · subst hv; rw [add_element_zero]
  · obtain ⟨he, -, -⟩ := add_element_fields M row col v hv
    rw [he]
    apply computedOrder_le
    intro e hme
    apply le_computedOrder_of_mem
    rw [List.mem_append]
    by_cases hex : e = (row, col, v)
    · right; simp [hex]
    · left
      rw [List.mem_filter]
      exact ⟨hme, by simp [hex]⟩

theorem computedOrder_add_elements (M : ComplexMatrix) (es : List Entry) :
    computedOrder M.entries ≤ computedOrder (add_elements M es).entries := by
  induction es generalizing M with
  | nil => exact le_refl _
  | cons e es ih =>
    exact le_trans (computedOrder_add_element M e.1 e.2.1 e.2.2) (ih _)

theorem Inv_new : Inv new := by decide

theorem Inv_build_primitive {M : ComplexMatrix} (h : Inv M) :
    Inv (build_primitive M) := by
  constructor
  · rw [build_primitive_order, build_primitive_entries]
    have := h.1
    omega
  · intro _
    rw [build_primitive_order, build_primitive_entries]
    have := h.1
    omega

theorem Inv_from_entries (es : List Entry) : Inv (from_entries es) := by
  unfold from_entries
  exact Inv_build_primitive (by constructor <;> simp [computedOrder])

theorem Inv_add_element {M : ComplexMatrix} (h : Inv M) (row col : Nat)
    (v : ℚ × ℚ) : Inv (add_element M row col v) := by
  by_cases hv : v = (0, 0)
  · subst hv; rw [add_element_zero]; exact h
  · obtain ⟨-, ho, hb⟩ := add_element_fields M row col v hv
    constructor
    · rw [ho]
      exact le_trans h.1 (computedOrder_add_element M row col v)
    · rw [hb]
      intro hfalse
      cases hfalse

theorem Inv_add_elements {M : ComplexMatrix} (h : Inv M) (es : List Entry) :
    Inv (add_elements M es) := by
  induction es generalizing M with
  | nil => exact h
  | cons e es ih => exact ih (Inv_add_element h e.1 e.2.1 e.2.2)

theorem Inv_applyOp {M : ComplexMatrix} (h : Inv M) (op : Op) :
    Inv (applyOp M op) := by
  cases op with
  | addElement row col v => exact Inv_add_element h row col v
  | addElements es => exact Inv_add_elements h es

theorem Inv_applyOps {M : ComplexMatrix} (h : Inv M) (ops : List Op) :
    Inv (applyOps M ops) := by
  induction ops generalizing M with
  | nil => exact h
  | cons op ops ih => exact ih (Inv_applyOp h op)

theorem computedOrder_applyOp (M : ComplexMatrix) (op : Op) :
    computedOrder M.entries ≤ computedOrder (applyOp M op).entries := by
  cases op with
  | addElement row col v => exact computedOrder_add_element M row col v
  | addElements es => exact computedOrder_add_elements M es

theorem computedOrder_applyOps (M : ComplexMatrix) (ops : List Op) :
    computedOrder M.entries ≤ computedOrder (applyOps M ops).entries := by
  induction ops generalizing M with
  | nil => exact le_refl _
  | cons op ops ih =>
    exact le_trans (computedOrder_applyOp M op) (ih (applyOp M op))

theorem order_fst {M : ComplexMatrix} (h : Inv M) :
    (order' M).1 = computedOrder M.entries := by
  unfold order'
  by_cases hb : M.builded = true
  · simp [hb, h.2 hb]
  · have hb' : M.builded = false := by
      cases hM : M.builded
      · rfl
      · exact absurd hM hb
    simp only [hb', Bool.false_eq_true, if_false]
    rw [build_primitive_order]
    have := h.1
    omega

/-! ### Claim theorems -/

/-- C1: the claim says that after `add_element(r, c, v)` then
`add_element(r, c, v2)` the matrix holds exactly one entry at `(r, c)` and
`get(r, c)` returns `v2`.  The code filters by full-triplet equality, not by
coordinate, so at the failing input — `add_element(0,0,(1,0))` then
`add_element(0,0,(2,0))` on a fresh matrix — both triplets coexist and
`get(0,0)` returns the *older* value `(1,0)`, not `(2,0)`. -/
theorem add_element_duplicate_coordinate :
    get (add_element (add_element new 0 0 (1, 0)) 0 0 (2, 0)) 0 0 = some (1, 0)
    ∧ ((add_element (add_element new 0 0 (1, 0)) 0 0 (2, 0)).entries.filter
        (fun e => decide (e.1 = 0 ∧ e.2.1 = 0))).length = 2
    ∧ get (add_element (add_element new 0 0 (1, 0)) 0 0 (2, 0)) 0 0
        ≠ some (2, 0) :=
  ⟨by decide, by decide, by decide⟩

/-- C2: the claim says `solve` with a right-hand side whose length differs
from `order()` returns a dimension-mismatch error without invoking the
primitive solver.  The code performs no length check: at the failing input
(a matrix of order 1 and `b = []` of length 0) the result of `solve` is
exactly whatever the primitive solver returns — `Ok []` for a solver that
succeeds, the solver's own error verbatim for one that fails — so the
primitive is invoked and no dimension-mismatch error is produced. -/
theorem solve_skips_dimension_check :
    (order' (from_entries [(0, 0, (1, 0))])).1 = 1
    ∧ (solve (fun _ _ => .ok []) (from_entries [(0, 0, (1, 0))]) []).1 = .ok []
    ∧ (solve (fun _ _ => .error "sentinel")
        (from_entries [(0, 0, (1, 0))]) []).1 = .error "sentinel" :=
  ⟨by decide, by rfl, by rfl⟩

/-- C3 counterexample: inserting the same two triplets in the two possible
orders yields entry lists that are equal as multisets (same coordinates with
the same values) yet `==` returns `false`, because `PartialEq` compares the
stored vectors elementwise in insertion order. -/
theorem eq_insertion_order_sensitive :
    eq (add_element (add_element new 0 0 (1, 0)) 1 1 (2, 0))
       (add_element (add_element new 1 1 (2, 0)) 0 0 (1, 0)) = false
    ∧ Multiset.ofList
        (add_element (add_element new 0 0 ((1 : ℚ), 0)) 1 1 (2, 0)).entries
      = Multiset.ofList
        (add_element (add_element new 1 1 ((2 : ℚ), 0)) 0 0 (1, 0)).entries :=
  ⟨by decide, by decide⟩

/-- C3 (amended): `M1 == M2` holds iff the stored triplet *sequences* are
equal (same triplets in the same stored order); equality of the triplet sets
alone does not suffice.  Equal matrices agree on `get` at every
coordinate. -/
theorem eq_iff_entry_lists (M1 M2 : ComplexMatrix) :
    (eq M1 M2 = true ↔ M1.entries = M2.entries)
    ∧ (eq M1 M2 = true → ∀ row col, get M1 row col = get M2 row col) := by
  constructor
  · simp [eq]
  · intro h row col
    have he : M1.entries = M2.entries := by simpa [eq] using h
    rw [get, get, he]

theorem eq_iff_entry_lists_witness :
    eq new new = true ∧ get new 0 0 = get new 0 0 :=
  ⟨(eq_iff_entry_lists new new).1.mpr rfl,
   (eq_iff_entry_lists new new).2 ((eq_iff_entry_lists new new).1.mpr rfl) 0 0⟩

/-- C8: `add_element` with the zero value `(0, 0)` is a complete no-op: the
state is unchanged, hence `get` at every coordinate, the stored entry count
and the value returned by `order()` are all unchanged. -/
theorem add_element_zero_noop (M : ComplexMatrix) (row col : Nat) :
    add_element M row col (0, 0) = M
    ∧ (∀ r c, get (add_element M row col (0, 0)) r c = get M r c)
    ∧ (add_element M row col (0, 0)).entries.length = M.entries.length
    ∧ (order' (add_element M row col (0, 0))).1 = (order' M).1 := by
  have h := add_element_zero M row col
  exact ⟨h, fun r c => by rw [h], by rw [h], by rw [h]⟩

/-- C5: expanding a complex vector to real form (all real parts in order,
then all imaginary parts in order) and folding the result back into complex
pairs returns exactly the original vector. -/
theorem complex_primitive_round_trip (b : List (ℚ × ℚ)) :
    primitive_to_complex (complex_to_primitive b) = .ok b := by
  have hlen : (b.map Prod.fst ++ b.map Prod.snd).length = b.length + b.length := by
    simp
  have hcond : ¬((b.map Prod.fst ++ b.map Prod.snd).length % 2 ≠ 0) := by
    rw [hlen]; omega
  simp only [primitive_to_complex, complex_to_primitive]
  rw [if_neg hcond, hlen]
  have hdiv : (b.length + b.length) / 2 = b.length := by omega
  rw [hdiv]
  have h1 : (b.map Prod.fst).length = b.length := by simp
  rw [← h1, List.take_left, List.drop_left, List.zip_map']
  simp

/-- C6: `primitive_to_complex` rejects every odd-length real vector with an
error rather than truncating, and on a vector of length `2n` returns `Ok`
with exactly `n` pairs, pairing element `i` with element `i + n`. -/
theorem primitive_to_complex_spec :
    (∀ v : List ℚ, v.length % 2 = 1 →
      primitive_to_complex v = .error "Lenght error")
    ∧ (∀ (v : List ℚ) (n : Nat), v.length = 2 * n →
      ∃ l, primitive_to_complex v = .ok l ∧ l.length = n
        ∧ ∀ i, i < n →
            ∃ x y, v[i]? = some x ∧ v[i + n]? = some y ∧ l[i]? = some (x, y)) := by
  constructor
  · intro v hv
    rw [primitive_to_complex, if_pos (by omega)]
  · intro v n hv
    have hdiv : v.length / 2 = n := by omega
    refine ⟨(v.take n).zip (v.drop n), ?_, ?_, ?_⟩
    · rw [primitive_to_complex, if_neg (by omega), hdiv]
    · simp [hv]
      omega
    · intro i hi
      have hx : (v.take n)[i]? = v[i]? := List.getElem?_take_of_lt hi
      have hy : (v.drop n)[i]? = v[n + i]? := List.getElem?_drop v n i
      have hxi : i < v.length := by omega
      have hyi : n + i < v.length := by omega
      refine ⟨v[i], v[n + i], ?_, ?_, ?_⟩
      · exact List.getElem?_eq_getElem hxi
      · rw [Nat.add_comm i n]
        exact List.getElem?_eq_getElem hyi
      · rw [List.getElem?_zip_eq_some]
        constructor
        · rw [hx]
          exact List.getElem?_eq_getElem hxi
        · rw [hy]
          exact List.getElem?_eq_getElem hyi

theorem primitive_to_complex_spec_witness :
    primitive_to_complex [(1 : ℚ), 2, 3] = .error "Lenght error"
    ∧ ∃ l, primitive_to_complex [(1 : ℚ), 2, 3, 4] = .ok l ∧ l.length = 2
        ∧ ∀ i, i < 2 →
            ∃ x y, [(1 : ℚ), 2, 3, 4][i]? = some x
              ∧ [(1 : ℚ), 2, 3, 4][i + 2]? = some y ∧ l[i]? = some (x, y) :=
  ⟨primitive_to_complex_spec.1 [1, 2, 3] (by decide),
   primitive_to_complex_spec.2 [1, 2, 3, 4] 2 (by decide)⟩

/-- C7: under the state invariant, `order()` returns `1 + max(row, col)` over
the currently stored triplets (`0` when there are none), and the value
returned immediately after an `add_element` reflects that mutation: it is
recomputed from the mutated entry list, never the pre-mutation value. -/
theorem order_matches_spec (M : ComplexMatrix) (h : Inv M) :
    (order' M).1 = specOrder M.entries
    ∧ (M.entries = [] → (order' M).1 = 0)
    ∧ ∀ row col v,
        (order' (add_element M row col v)).1
          = specOrder (add_element M row col v).entries := by
  refine ⟨?_, ?_, ?_⟩
  · rw [order_fst h, computedOrder_eq_specOrder]
  · intro he
    rw [order_fst h, he]
    rfl
  · intro row col v
    rw [order_fst (Inv_add_element h row col v), computedOrder_eq_specOrder]

theorem order_matches_spec_witness :
    (order' (from_entries [(0, 0, ((1 : ℚ), 0)), (2, 1, (2, 3))])).1
      = specOrder (from_entries [(0, 0, ((1 : ℚ), 0)), (2, 1, (2, 3))]).entries :=
  (order_matches_spec _ (Inv_from_entries _)).1

/-- C10: the value returned by `order()` is monotonically non-decreasing
across any sequence of `add_element` / `add_elements` calls: no public
mutation removes a coordinate from the stored triplet list, so once
`order()` has returned `n`, the call after any further mutations returns a
value `≥ n`. -/
theorem order_monotone (M : ComplexMatrix) (h : Inv M) (ops : List Op) :
    (order' M).1 ≤ (order' (applyOps M ops)).1 := by
  rw [order_fst h, order_fst (Inv_applyOps h ops)]
  exact computedOrder_applyOps M ops

theorem order_monotone_witness :
    (order' new).1
      ≤ (order' (applyOps new
          [Op.addElement 4 0 (1, 0), Op.addElements [(1, 7, (2, 3))]])).1 :=
  order_monotone new Inv_new
    [Op.addElement 4 0 (1, 0), Op.addElements [(1, 7, (2, 3))]]

/-! ### Augmentation placement (C4) -/

theorem minPos_eq : minPos = 1 / 2 ^ 1022 := by
  rw [minPos, Rat.mk'_eq_divInt, Rat.divInt_eq_div]
  push_cast
  ring

theorem subnormal_eq : subnormal = 1 / 2 ^ 1023 := by
  rw [subnormal, Rat.mk'_eq_divInt, Rat.divInt_eq_div]
  push_cast
  ring

set_option maxRecDepth 8000 in
/-- C4 counterexample: the nonzero subnormal double `2^-1023` as real
component (with zero imaginary component) emits *no* primitive entries —
`set_in_primitive`'s guard compares against `f64::MIN_POSITIVE = 2^-1022`,
not against zero — refuting the claim that a sub-entry is omitted exactly
when its source component is the additive identity. -/
theorem subnormal_component_skipped :
    subnormal ≠ 0
    ∧ (set_in_primitive ⟨[], [], false, 1⟩ (0, 0, (subnormal, 0))).primitive
        = [] :=
  ⟨by decide, by decide⟩

/-- C4 (amended): for a stored coefficient `a + j*b` at `(row, col)` and the
current order `n`, the augmentation places `a` at `(row, col)` and
`(row + n, col + n)`, `-b` at `(row, col + n)` and `b` at `(row + n, col)`,
and nothing else; the `a` sub-entries are emitted exactly when
`|a| ≥ f64::MIN_POSITIVE` (omitted when `a` is zero *or subnormal*), and
independently the `b` sub-entries exactly when `|b| ≥ f64::MIN_POSITIVE`. -/
theorem set_in_primitive_placement (M : ComplexMatrix) (row col : Nat)
    (a b : ℚ) (r c : Nat) (v : ℚ) :
    (r, c, v) ∈ (set_in_primitive M (row, col, (a, b))).primitive
      ↔ (r, c, v) ∈ M.primitive
        ∨ (aboveMin a
            ∧ (r = row ∧ c = col ∨ r = row + M.order ∧ c = col + M.order)
            ∧ v = a)
        ∨ (aboveMin b
            ∧ (r = row ∧ c = col + M.order ∧ v = -b
                ∨ r = row + M.order ∧ c = col ∧ v = b)) := by
  by_cases ha : aboveMin a <;> by_cases hb : aboveMin b <;>
    simp [set_in_primitive, ha, hb, List.mem_append, Prod.ext_iff] <;> tauto

set_option maxRecDepth 8000 in
theorem set_in_primitive_placement_witness :
    ((0 : Nat), (0 : Nat), (1 : ℚ))
      ∈ (set_in_primitive ⟨[], [], false, 1⟩ (0, 0, (1, 2))).primitive :=
  (set_in_primitive_placement ⟨[], [], false, 1⟩ 0 0 1 2 0 0 1).mpr
    (Or.inr (Or.inl ⟨by decide, Or.inl ⟨rfl, rfl⟩, rfl⟩))

/-! ### Debug rendering (C9) -/

theorem fmt_entry_step_eq (msg : String) (e : Entry) :
    fmt_entry_step msg e = msg ++ entryLine e := by
  rw [fmt_entry_step, entryLine]
  split <;> rfl

theorem foldl_string_append (l : List String) (init : String) :
    l.foldl (· ++ ·) init = init ++ String.join l := by
  induction l generalizing init with
  | nil => simp [String.join]
  | cons s l ih =>
    have h1 : (s :: l).foldl (· ++ ·) init = l.foldl (· ++ ·) (init ++ s) := rfl
    have h2 : String.join (s :: l) = l.foldl (· ++ ·) ("" ++ s) := rfl
    rw [h1, h2, ih (init ++ s), ih ("" ++ s)]
    simp [String.append_assoc]

theorem foldl_fmt_entry_step (es : List Entry) (init : String) :
    es.foldl fmt_entry_step init = init ++ String.join (es.map entryLine) := by
  induction es generalizing init with
  | nil => simp [String.join]
  | cons e es ih =>
    have h1 : (e :: es).foldl fmt_entry_step init
        = es.foldl fmt_entry_step (fmt_entry_step init e) := rfl
    have h2 : String.join (entryLine e :: es.map entryLine)
        = (es.map entryLine).foldl (· ++ ·) ("" ++ entryLine e) := rfl
    rw [h1, ih, fmt_entry_step_eq, List.map_cons, h2,
      foldl_string_append]
    simp [String.append_assoc]

/-- C9: the Debug rendering is the fixed header, then exactly one line per
stored entry of the form `  (row,col) -> value` — with `+ j` for a
non-negative imaginary component and `- j` plus the negated component for a
negative one — then the closing brace; in particular the matrix whose single
entry is `(0,0) = 3 - j2` renders the line `(0,0) -> 3 - j2`. -/
theorem fmt_debug_renders_lines (M : ComplexMatrix) :
    fmt_debug M
      = "ComplexMatrix \x7b \n" ++ String.join (M.entries.map entryLine)
          ++ "\x7d"
    ∧ fmt_debug (add_element new 0 0 (3, -2))
      = "ComplexMatrix \x7b \n" ++ "  " ++ "(0,0) -> 3 - j2" ++ "\n"
          ++ "\x7d" := by
  constructor
  · rw [fmt_debug, foldl_fmt_entry_step]
  · decide

end SparseComplex
